import Mathlib

/-!
Verification of the installation-reconciliation engine of the `uv` package
manager, as described by its specification, against a shallow embedding of
the code in `src/crates/uv-installer` and `src/crates/uv/src/commands/venv.rs`.

The crate root `src/crates/uv-installer/src/lib.rs` only re-exports the
modules `plan`, `satisfies`, `site_packages`, `installer`, `uninstall` and
`compile`; their bodies are not part of the source excerpt. Where a claim
depends on one of those bodies, the corresponding definition is modelled
from the specification (its doc comment says so explicitly). The
definitions for the `venv` command are translated directly from
`src/crates/uv/src/commands/venv.rs`.
-/

namespace UvSpec

/-! ## Data model (spec section 3) -/

/-- Modelled from the spec: name normalization for project names. The spec
refers to "normalized project name" lookups; the normalization function
itself is outside the excerpt, so it is modelled as case folding. -/
def normalize (s : String) : String := String.mk (s.data.map Char.toLower)

/-- Modelled from the spec: a requirement's version/URL constraint
(spec section 3, "Requirement": "a project name, version/URL constraint"). -/
inductive Constraint where
  | version (v : String)
  | source (url : String)
  deriving DecidableEq, Repr

/-- Modelled from the spec: a resolved requirement as consumed by the
engine (name plus version/URL constraint). -/
structure Requirement where
  name : String
  constraint : Constraint
  deriving DecidableEq, Repr

/-- Modelled from the spec: an installed distribution as recorded in the
environment inventory: project name, exact version, recorded source
identity (for URL/path installs), and the flag for whether its metadata
could be parsed (spec section 3, "InstalledDistribution"). -/
structure InstalledDistribution where
  name : String
  version : String
  sourceId : Option String
  metadataOk : Bool
  deriving DecidableEq, Repr

/-- Modelled from the spec: the `SatisfiesResult` closed variant set
(spec section 3): Satisfied, Mismatch, OutOfDate, CacheNotFound, Unusable. -/
inductive SatisfiesResult where
  | Satisfied
  | Mismatch
  | OutOfDate
  | CacheNotFound
  | Unusable
  deriving DecidableEq, Repr

/-! ## Satisfaction checker (spec section 4.2); module `satisfies` is not in
the excerpt. -/

/-- The spec-worded reuse condition for claim C2: "D's recorded source
identity and version exactly match R's constraint". -/
def exactMatch (r : Requirement) (d : InstalledDistribution) : Bool :=
  match r.constraint with
  | .source url => d.sourceId = some url
  | .version v => d.version = v

/-- Modelled from the spec: `satisfies(requirement, installed)` of the
`satisfies` module (not in the excerpt). Decision policy of spec
section 4.2: a name mismatch is impossible (lookup is by normalized name);
unreadable metadata yields `Unusable`, never `Satisfied`; a pinned source is
compared against the recorded source identity; a version specifier is
compared against the installed version. -/
def satisfies (r : Requirement) (d : InstalledDistribution) : SatisfiesResult :=
  if d.metadataOk = false then .Unusable
  else
    match r.constraint with
    | .source url => if d.sourceId = some url then .Satisfied else .Mismatch
    | .version v => if d.version = v then .Satisfied else .Mismatch

/-! ## Planner (spec section 4.3); module `plan` is not in the excerpt. -/

/-- Modelled from the spec: the `Plan` produced by the Planner — four sets:
reuse / cached / remote over the desired requirements, and extraneous over
the installed inventory (spec section 3, "Plan"). -/
structure Plan where
  reuse : List Requirement
  cached : List Requirement
  remote : List Requirement
  extraneous : List InstalledDistribution
  deriving DecidableEq, Repr

/-- Inventory lookup by normalized name (spec section 3, `SitePackages`:
"a mapping from normalized project name → InstalledDistribution"). -/
def lookupInv (inv : List InstalledDistribution) (key : String) :
    Option InstalledDistribution :=
  inv.find? (fun d => normalize d.name = key)

/-- Cache lookup: whether "a matching built artifact is already present in
the local artifact cache" (spec section 4.3). The cache is modelled as the
set of requirements whose artifact is present. -/
def cacheHas (cache : List Requirement) (r : Requirement) : Bool :=
  cache.contains r

/-- The three buckets a desired requirement can land in. -/
inductive Category where
  | reuse
  | cached
  | remote
  deriving DecidableEq, Repr

/-- Modelled from the spec: how the Planner categorizes one desired
requirement (spec section 4.3): no installed distribution of that name →
cached if the cache has a matching artifact, else remote; an installed
distribution exists → `Satisfied` means reuse, otherwise cache-or-remote. -/
def categorize (inv : List InstalledDistribution) (cache : List Requirement)
    (r : Requirement) : Category :=
  match lookupInv inv (normalize r.name) with
  | some d =>
      if satisfies r d = .Satisfied then .reuse
      else if cacheHas cache r then .cached else .remote
  | none => if cacheHas cache r then .cached else .remote

/-- Modelled from the spec: the old installed entry that a desired
requirement replaces, if any (spec section 4.3: "otherwise the old entry is
added to `extraneous`"). -/
def replacedEntry (inv : List InstalledDistribution) (r : Requirement) :
    Option InstalledDistribution :=
  match lookupInv inv (normalize r.name) with
  | some d => if satisfies r d = .Satisfied then none else some d
  | none => none

/-- Whether an installed entry's normalized name occurs in the desired set. -/
def isDesired (reqs : List Requirement) (d : InstalledDistribution) : Bool :=
  reqs.any (fun r => normalize r.name = normalize d.name)

/-- Modelled from the spec: `plan(requirements, inventory, cache) -> Plan`
(spec section 4.3). Each desired requirement is categorized by
`categorize`; each superseded installed entry, and each inventory entry
whose name is not in the desired set at all, lands in `extraneous`. -/
def plan (reqs : List Requirement) (inv : List InstalledDistribution)
    (cache : List Requirement) : Plan :=
  { reuse := reqs.filter (fun r => categorize inv cache r = .reuse)
    cached := reqs.filter (fun r => categorize inv cache r = .cached)
    remote := reqs.filter (fun r => categorize inv cache r = .remote)
    extraneous :=
      reqs.filterMap (replacedEntry inv) ++
        inv.filter (fun d => ¬ isDesired reqs d) }

/-! ## Engine run (spec sections 2 and 4.4-4.7): the resulting inventory after
executing a plan to completion. The executing modules are not in the excerpt. -/

/-- Modelled from the spec: the installed distribution produced by fetching,
building and installing a requirement (spec sections 4.4 and 4.6): its
recorded identity exactly matches the requirement and its metadata record is
written and parseable. -/
def installOf (r : Requirement) : InstalledDistribution :=
  match r.constraint with
  | .version v => { name := r.name, version := v, sourceId := none, metadataOk := true }
  | .source url => { name := r.name, version := "", sourceId := some url, metadataOk := true }

/-- Modelled from the spec: the inventory entry for one desired requirement
after a completed engine run — a satisfied installed distribution is reused
in place, anything else is replaced by a fresh install (spec sections 2
and 4.3: reuse / fetch+install / uninstall the superseded entry). -/
def runEntry (inv : List InstalledDistribution) (r : Requirement) :
    InstalledDistribution :=
  match lookupInv inv (normalize r.name) with
  | some d => if satisfies r d = .Satisfied then d else installOf r
  | none => installOf r

/-- Modelled from the spec: the environment inventory after one completed
engine run on a desired set — one entry per desired requirement, with every
extraneous entry uninstalled (spec section 2, control flow; section 4.7). -/
def engineRun (reqs : List Requirement) (inv : List InstalledDistribution) :
    List InstalledDistribution :=
  reqs.map (runEntry inv)

/-! ## Uninstaller (spec section 4.7); module `uninstall` is not in the
excerpt. -/

/-- Modelled from the spec: one entry of an installed manifest — an
installed file path with its recorded content digest (spec section 3,
"InstalledDistribution": "list of installed file paths with content
digests"). -/
structure ManifestEntry where
  path : String
  digest : String
  deriving DecidableEq, Repr

/-- The current content digest of a path on disk, if the file exists. The
disk is modelled as an association list from path to digest. -/
def diskDigest (disk : List (String × String)) (p : String) : Option String :=
  (disk.find? (fun e => e.1 = p)).map (fun e => e.2)

/-- Modelled from the spec: the outcome of an uninstall — the freed file
list plus the per-file skips reported to the caller (spec section 4.7:
skips are non-fatal and aggregated, the operation itself never fails). -/
structure UninstallResult where
  removed : List String
  skipped : List String
  deriving DecidableEq, Repr

/-- Modelled from the spec: `uninstall(installed_distribution)` guided by
its installed manifest (spec section 4.7): removes exactly the listed files
whose current on-disk digest matches the recorded digest, and refuses to
remove — reporting a non-fatal skip — any file whose current digest no
longer matches. -/
def uninstall (manifest : List ManifestEntry) (disk : List (String × String)) :
    UninstallResult :=
  { removed :=
      (manifest.filter (fun e => diskDigest disk e.path = some e.digest)).map
        ManifestEntry.path
    skipped :=
      (manifest.filter (fun e => ¬ diskDigest disk e.path = some e.digest)).map
        ManifestEntry.path }

/-! ## Installer (spec section 4.6); modules `installer` and `compile` are
not in the excerpt. -/

/-- Modelled from the spec: a built artifact ready to install — the
distribution's name and the files its wheel contains. -/
structure BuiltArtifact where
  name : String
  files : List String
  deriving DecidableEq, Repr

/-- Modelled from the spec: the environment's mutable state touched by the
Installer — placed files, committed installed-manifest records (one per
registered distribution), and the collected diagnostics. -/
structure Env where
  files : List String
  manifests : List (String × List String)
  diagnostics : List String
  deriving DecidableEq, Repr

/-- Modelled from the spec: the Installer's elementary actions — staging
one file, committing the installed-manifest record, and best-effort
bytecode compilation of one file (spec section 4.6). -/
inductive Step where
  | stageFile (path : String)
  | commitManifest (name : String) (paths : List String)
  | compileByte (path : String)
  deriving DecidableEq, Repr

/-- Modelled from the spec: the Installer's step sequence for one artifact —
all files are staged, then the manifest is committed, then bytecode
pre-compilation runs over the installed tree (spec section 4.6: "files are
staged then the manifest is committed", "Then triggers bytecode
pre-compilation"). -/
def installSteps (a : BuiltArtifact) : List Step :=
  a.files.map Step.stageFile ++ [Step.commitManifest a.name a.files] ++
    a.files.map Step.compileByte

/-- Modelled from the spec: the effect of one Installer step. Filesystem
nondeterminism is passed in explicitly: `fsFails` is the set of paths whose
staging write fails (a fatal `InstallError`, spec section 7), `compileFails`
the set of files whose bytecode compilation fails (collected as a
diagnostic, never an error — spec section 4.6). -/
def applyStep (fsFails compileFails : List String) (env : Env) :
    Step → Except String Env
  | .stageFile p =>
      if p ∈ fsFails then .error p
      else .ok { env with files := env.files ++ [p] }
  | .commitManifest n ps =>
      .ok { env with manifests := env.manifests ++ [(n, ps)] }
  | .compileByte p =>
      if p ∈ compileFails then
        .ok { env with diagnostics := env.diagnostics ++ [p] }
      else .ok env

/-- Run a list of Installer steps in order, stopping at the first error
(the embedding of Rust `?` propagation). -/
def runSteps (fsFails compileFails : List String) (env : Env) :
    List Step → Except String Env
  | [] => .ok env
  | s :: rest =>
      match applyStep fsFails compileFails env s with
      | .error e => .error e
      | .ok env' => runSteps fsFails compileFails env' rest

/-- Modelled from the spec: `install(built_artifact, environment)` — runs
the full step sequence for the artifact (spec section 4.6). -/
def runInstall (fsFails compileFails : List String) (env : Env)
    (a : BuiltArtifact) : Except String Env :=
  runSteps fsFails compileFails env (installSteps a)

/-- Whether a distribution is registered as installed: an inventory scan
finds its committed manifest record (spec sections 4.1 and 4.6). -/
def isRegistered (env : Env) (n : String) : Bool :=
  env.manifests.any (fun m => m.1 = n)

/-! ## The `venv` command, translated from
`src/crates/uv/src/commands/venv.rs`. -/

/-- The command exit status used by `venv` (defined in the `commands`
module outside the excerpt; `venv.rs` uses the variants `Success` and
`Failure`). -/
inductive ExitStatus where
  | Success
  | Failure
  deriving DecidableEq, Repr

/-- Embeds the seed-requirement selection of `venv_impl`
(venv.rs lines 225-238): on Python < 3.12 (Rust tuple order on
`python_tuple()`) the seeds are pip, setuptools and wheel; otherwise pip
alone. -/
def seedRequirements (pythonTuple : Nat × Nat) : List String :=
  if pythonTuple.1 < 3 || (pythonTuple.1 == 3 && pythonTuple.2 < 12) then
    ["pip", "setuptools", "wheel"]
  else
    ["pip"]

/-- Embeds `venv_impl` (venv.rs lines 102-287) over its fallible
milestones: interpreter discovery, virtualenv creation, the seed-install
block (run only when `seed` is set) and the status writes; each is passed
in as its outcome. Every failure is propagated with `?`/`map_err`, and the
only success exit is `Ok(ExitStatus::Success)` (line 286). -/
def venv_impl (findInterpreter create : Except String Unit) (seed : Bool)
    (seedInstall : Except String Unit) (writeActivation : Except String Unit) :
    Except String ExitStatus := do
  findInterpreter
  create
  if seed then seedInstall
  writeActivation
  return ExitStatus.Success

/-- Embeds `venv` (venv.rs lines 37-79): matches the result of
`venv_impl`, printing the error and converting it to
`Ok(ExitStatus::Failure)`; a success status is passed through. -/
def venv (impl : Except String ExitStatus) : Except String ExitStatus :=
  match impl with
  | .ok status => .ok status
  | .error _ => .ok ExitStatus.Failure

/-! ## Shell quoting, translated from `shlex_posix`
(venv.rs lines 290-302), over the display path's characters. -/

/-- The single-quote character. -/
def squote : Char := Char.ofNat 39

/-- The double-quote character. -/
def dquote : Char := Char.ofNat 34

/-- The space character. -/
def space : Char := Char.ofNat 32

/-- The five-character sequence a single quote is replaced with:
single quote, double quote, single quote, double quote, single quote
(the Rust literal in venv.rs line 298). -/
def quoteReplacement : List Char := [squote, dquote, squote, dquote, squote]

/-- Embeds the char-pattern `replace` call of venv.rs line 298: every
single quote becomes `quoteReplacement`, every other character is kept. -/
def replaceQuote : List Char → List Char
  | [] => []
  | c :: rest => (if c = squote then quoteReplacement else [c]) ++ replaceQuote rest

/-- Embeds `shlex_posix` (venv.rs lines 290-302): a display path with no
space is returned unchanged; otherwise it is wrapped in single quotes with
every embedded single quote replaced. -/
def shlex_posix (executable : List Char) : List Char :=
  if executable.contains space then
    squote :: (replaceQuote executable ++ [squote])
  else executable

/-- The spec-side description of the replacement for claim C10: every
embedded single quote replaced by the five-character sequence, written as a
flat map over the characters. -/
def replaceQuoteSpec (s : List Char) : List Char :=
  (s.map (fun c => if c = squote then quoteReplacement else [c])).flatten

/-- Quoting state of a POSIX shell reader: outside quotes, inside single
quotes, inside double quotes. -/
inductive QuoteMode where
  | unquoted
  | single
  | double
  deriving DecidableEq, Repr

/-- A one-word POSIX shell reader, used to state that the quoted output is
read back as the original path: single quotes protect everything until the
next single quote; double quotes protect everything except the characters a
shell treats specially inside them (dollar, backslash, backquote — the
reader rejects those, and an unquoted space ends the word). -/
def posixReadAux : QuoteMode → List Char → Option (List Char)
  | .unquoted, [] => some []
  | .single, [] => none
  | .double, [] => none
  | .unquoted, c :: rest =>
      if c = squote then posixReadAux .single rest
      else if c = dquote then posixReadAux .double rest
      else if c = space then none
      else (posixReadAux .unquoted rest).map (fun s => c :: s)
  | .single, c :: rest =>
      if c = squote then posixReadAux .unquoted rest
      else (posixReadAux .single rest).map (fun s => c :: s)
  | .double, c :: rest =>
      if c = dquote then posixReadAux .unquoted rest
      else if c = Char.ofNat 36 ∨ c = Char.ofNat 92 ∨ c = Char.ofNat 96 then none
      else (posixReadAux .double rest).map (fun s => c :: s)
termination_by _m s => s.length

/-- Read one whole shell word starting outside quotes. -/
def posixRead (s : List Char) : Option (List Char) :=
  posixReadAux .unquoted s

end UvSpec

/-! ## Theorems -/

namespace UvSpec

/-- **C2.** `satisfies(R, D)` is `Satisfied` iff D's recorded source
identity and version exactly match R's constraint; when D's metadata cannot
be parsed the result is `Unusable`, never `Satisfied`. -/
theorem satisfies_satisfied_iff (r : Requirement) (d : InstalledDistribution) :
    (satisfies r d = .Satisfied ↔ (d.metadataOk = true ∧ exactMatch r d = true)) ∧
      (d.metadataOk = false → satisfies r d = .Unusable) := by
  constructor
  · unfold satisfies exactMatch
    cases hm : d.metadataOk <;> cases hc : r.constraint <;> simp [hm, hc]
  · intro hm
    unfold satisfies
    simp [hm]

/-- Witness for C2 at a concrete requirement and distribution. -/
theorem satisfies_satisfied_iff_witness :
    satisfies { name := "a", constraint := .version "1.0" }
        { name := "a", version := "1.0", sourceId := none, metadataOk := true } =
      .Satisfied := by
  have h := satisfies_satisfied_iff
    { name := "a", constraint := .version "1.0" }
    { name := "a", version := "1.0", sourceId := none, metadataOk := true }
  exact h.1.mpr (by decide)

/-- Example requirement used by concrete witnesses. -/
def reqA : Requirement := { name := "a", constraint := .version "1.0" }

/-- Example installed distribution (different project) used by witnesses. -/
def distB : InstalledDistribution :=
  { name := "b", version := "2.0", sourceId := none, metadataOk := true }

/-- **C1.** The plan partitions the inputs: each desired requirement is in
exactly one of reuse, cached, remote; every inventory entry whose
normalized name is not desired appears in extraneous. -/
theorem plan_partition (reqs : List Requirement) (inv : List InstalledDistribution)
    (cache : List Requirement) (hnd : reqs.Nodup) :
    (∀ r ∈ reqs,
        (plan reqs inv cache).reuse.count r + (plan reqs inv cache).cached.count r +
            (plan reqs inv cache).remote.count r = 1) ∧
      ∀ d ∈ inv, isDesired reqs d = false → d ∈ (plan reqs inv cache).extraneous := by
  constructor
  · intro r hr
    have h1 : reqs.count r = 1 := List.count_eq_one_of_mem hnd hr
    simp only [plan]
    cases hc : categorize inv cache r with
    | reuse =>
        have h2 : (reqs.filter (fun r => categorize inv cache r = Category.cached)).count r = 0 := by
          simp [List.count_eq_zero, List.mem_filter, hc]
        have h3 : (reqs.filter (fun r => categorize inv cache r = Category.remote)).count r = 0 := by
          simp [List.count_eq_zero, List.mem_filter, hc]
        rw [h2, h3, List.count_filter (by simp [hc]), h1]
    | cached =>
        have h2 : (reqs.filter (fun r => categorize inv cache r = Category.reuse)).count r = 0 := by
          simp [List.count_eq_zero, List.mem_filter, hc]
        have h3 : (reqs.filter (fun r => categorize inv cache r = Category.remote)).count r = 0 := by
          simp [List.count_eq_zero, List.mem_filter, hc]
        rw [h2, h3, List.count_filter (by simp [hc]), h1]
    | remote =>
        have h2 : (reqs.filter (fun r => categorize inv cache r = Category.reuse)).count r = 0 := by
          simp [List.count_eq_zero, List.mem_filter, hc]
        have h3 : (reqs.filter (fun r => categorize inv cache r = Category.cached)).count r = 0 := by
          simp [List.count_eq_zero, List.mem_filter, hc]
        rw [h2, h3, List.count_filter (by simp [hc]), h1]
  · intro d hd hnotdes
    simp only [plan]
    refine List.mem_append.mpr (Or.inr ?_)
    exact List.mem_filter.mpr ⟨hd, by simp [hnotdes]⟩

/-- Witness for C1: a single desired requirement and an undesired inventory
entry, at concrete values. -/
theorem plan_partition_witness :
    ((plan [reqA] [distB] []).reuse.count reqA + (plan [reqA] [distB] []).cached.count reqA +
        (plan [reqA] [distB] []).remote.count reqA = 1) ∧
      distB ∈ (plan [reqA] [distB] []).extraneous := by
  have h := plan_partition [reqA] [distB] [] (by decide)
  exact ⟨h.1 reqA (by decide), h.2 distB (by decide) (by decide)⟩

/-- An inventory entry found by a normalized-name lookup has that
normalized name. -/
theorem lookupInv_name {inv : List InstalledDistribution} {key : String}
    {d : InstalledDistribution} (h : lookupInv inv key = some d) :
    normalize d.name = key := by
  have := List.find?_some h
  simpa using this

/-- A freshly installed distribution satisfies the requirement it was
installed for. -/
theorem satisfies_installOf (r : Requirement) :
    satisfies r (installOf r) = .Satisfied := by
  cases hc : r.constraint <;> simp [satisfies, installOf, hc]

/-- The inventory entry for a desired requirement after an engine run
satisfies that requirement. -/
theorem satisfies_runEntry (inv : List InstalledDistribution) (r : Requirement) :
    satisfies r (runEntry inv r) = .Satisfied := by
  unfold runEntry
  cases h : lookupInv inv (normalize r.name) with
  | none => exact satisfies_installOf r
  | some d =>
      by_cases hs : satisfies r d = .Satisfied
      · simp [hs]
      · simp [hs, satisfies_installOf r]

/-- The post-run inventory entry for a requirement keeps its normalized
name. -/
theorem normalize_runEntry (inv : List InstalledDistribution) (r : Requirement) :
    normalize (runEntry inv r).name = normalize r.name := by
  unfold runEntry
  cases h : lookupInv inv (normalize r.name) with
  | none => cases hc : r.constraint <;> simp [installOf, hc]
  | some d =>
      by_cases hs : satisfies r d = .Satisfied
      · simpa [hs] using lookupInv_name h
      · cases hc : r.constraint <;> simp [hs, installOf, hc]

/-- In the post-run inventory, looking a desired requirement's normalized
name up finds exactly its own entry (given distinct normalized names). -/
theorem lookupInv_engineRun (inv : List InstalledDistribution) :
    ∀ (reqs : List Requirement) (r : Requirement),
      (reqs.map (fun r => normalize r.name)).Nodup → r ∈ reqs →
      lookupInv (engineRun reqs inv) (normalize r.name) = some (runEntry inv r) := by
  intro reqs
  induction reqs with
  | nil => intro r _ hr; cases hr
  | cons a t ih =>
      intro r hnd hr
      have hnd' := hnd
      rw [List.map_cons, List.nodup_cons] at hnd'
      rcases List.mem_cons.mp hr with rfl | hrt
      · unfold engineRun lookupInv
        rw [List.map_cons]
        rw [List.find?_cons_of_pos _ (by simp [normalize_runEntry])]
      · have hne : normalize a.name ≠ normalize r.name := by
          intro he
          exact hnd'.1 (he ▸ List.mem_map.mpr ⟨r, hrt, rfl⟩)
        unfold engineRun lookupInv
        rw [List.map_cons]
        rw [List.find?_cons_of_neg _ (by simp [normalize_runEntry, hne])]
        exact ih r hnd'.2 hrt

/-- After an engine run, every desired requirement is categorized as reuse. -/
theorem categorize_engineRun (inv : List InstalledDistribution)
    (cache : List Requirement) (reqs : List Requirement) (r : Requirement)
    (hnd : (reqs.map (fun r => normalize r.name)).Nodup) (hr : r ∈ reqs) :
    categorize (engineRun reqs inv) cache r = .reuse := by
  unfold categorize
  rw [lookupInv_engineRun inv reqs r hnd hr]
  simp [satisfies_runEntry]

/-- **C3.** Idempotence: planning the same desired set against the inventory
left by a completed engine run puts every requirement in reuse and leaves
cached, remote and extraneous empty. -/
theorem engine_idempotent (reqs : List Requirement) (inv : List InstalledDistribution)
    (cache : List Requirement)
    (hnd : (reqs.map (fun r => normalize r.name)).Nodup) :
    plan reqs (engineRun reqs inv) cache =
      { reuse := reqs, cached := [], remote := [], extraneous := [] } := by
  have hcat : ∀ r ∈ reqs, categorize (engineRun reqs inv) cache r = .reuse :=
    fun r hr => categorize_engineRun inv cache reqs r hnd hr
  unfold plan
  simp only [Plan.mk.injEq]
  refine ⟨?_, ?_, ?_, ?_⟩
  · exact List.filter_eq_self.mpr (fun r hr => by simp [hcat r hr])
  · exact List.filter_eq_nil_iff.mpr (fun r hr => by simp [hcat r hr])
  · exact List.filter_eq_nil_iff.mpr (fun r hr => by simp [hcat r hr])
  · rw [List.append_eq_nil]
    constructor
    · refine List.filterMap_eq_nil_iff.mpr (fun r hr => ?_)
      unfold replacedEntry
      rw [lookupInv_engineRun inv reqs r hnd hr]
      simp [satisfies_runEntry]
    · refine List.filter_eq_nil_iff.mpr (fun d hd => ?_)
      rcases List.mem_map.mp hd with ⟨r, hr, rfl⟩
      have : isDesired reqs (runEntry inv r) = true :=
        List.any_eq_true.mpr ⟨r, hr, by simp [normalize_runEntry]⟩
      simp [this]

/-- Witness for C3 at a concrete desired set and inventory. -/
theorem engine_idempotent_witness :
    plan [reqA] (engineRun [reqA] [distB]) [] =
      { reuse := [reqA], cached := [], remote := [], extraneous := [] } :=
  engine_idempotent [reqA] [distB] [] (by decide)

/-- **C5.** Uninstall safety: a manifest file whose current on-disk digest
differs from the recorded digest is never removed; it is skipped and the
skip is reported, without failing the overall uninstall. -/
theorem uninstall_safety (manifest : List ManifestEntry)
    (disk : List (String × String)) (e : ManifestEntry)
    (hnd : (manifest.map ManifestEntry.path).Nodup)
    (he : e ∈ manifest) (hdiff : diskDigest disk e.path ≠ some e.digest) :
    e.path ∉ (uninstall manifest disk).removed ∧
      e.path ∈ (uninstall manifest disk).skipped := by
  constructor
  · intro hmem
    simp only [uninstall] at hmem
    rcases List.mem_map.mp hmem with ⟨e', he'mem, he'path⟩
    rcases List.mem_filter.mp he'mem with ⟨he'manifest, he'match⟩
    have : e' = e :=
      List.inj_on_of_nodup_map hnd he'manifest he he'path
    subst this
    exact hdiff (by simpa using he'match)
  · simp only [uninstall]
    exact List.mem_map.mpr
      ⟨e, List.mem_filter.mpr ⟨he, by simpa using hdiff⟩, rfl⟩

/-- Witness for C5: a one-file manifest whose on-disk digest was changed. -/
theorem uninstall_safety_witness :
    "f" ∉ (uninstall [⟨"f", "d1"⟩] [("f", "d2")]).removed ∧
      "f" ∈ (uninstall [⟨"f", "d1"⟩] [("f", "d2")]).skipped :=
  uninstall_safety [⟨"f", "d1"⟩] [("f", "d2")] ⟨"f", "d1"⟩
    (by decide) (by decide) (by decide)

/-- Running the staging steps for a list of files succeeds when none of
their writes fail, and only appends the files to the environment. -/
theorem runSteps_stage_ok (ff cf : List String) :
    ∀ (fs : List String) (env : Env), (∀ p ∈ fs, p ∉ ff) →
      runSteps ff cf env (fs.map Step.stageFile) =
        .ok { env with files := env.files ++ fs } := by
  intro fs
  induction fs with
  | nil => intro env _; simp [runSteps]
  | cons p rest ih =>
      intro env hok
      have hp : p ∉ ff := hok p (List.mem_cons_self p rest)
      rw [List.map_cons]
      simp only [runSteps, applyStep, if_neg hp]
      rw [ih _ (fun q hq => hok q (List.mem_cons_of_mem p hq))]
      simp

/-- Running the bytecode-compilation steps always succeeds; the failing
files are appended to the diagnostics and nothing else changes. -/
theorem runSteps_compile (ff cf : List String) :
    ∀ (fs : List String) (env : Env),
      runSteps ff cf env (fs.map Step.compileByte) =
        .ok { env with
              diagnostics := env.diagnostics ++ fs.filter (fun p => p ∈ cf) } := by
  intro fs
  induction fs with
  | nil => intro env; simp [runSteps]
  | cons p rest ih =>
      intro env
      rw [List.map_cons]
      by_cases hp : p ∈ cf
      · simp only [runSteps, applyStep, if_pos hp]
        rw [ih]
        simp [List.filter_cons, hp]
      · simp only [runSteps, applyStep, if_neg hp]
        rw [ih]
        simp [List.filter_cons, hp]

/-- Step lists compose under `runSteps`. -/
theorem runSteps_append (ff cf : List String) :
    ∀ (l₁ l₂ : List Step) (env : Env),
      runSteps ff cf env (l₁ ++ l₂) =
        match runSteps ff cf env l₁ with
        | .error e => .error e
        | .ok env' => runSteps ff cf env' l₂ := by
  intro l₁
  induction l₁ with
  | nil => intro l₂ env; simp [runSteps]
  | cons s rest ih =>
      intro l₂ env
      rw [List.cons_append]
      simp only [runSteps]
      cases applyStep ff cf env s with
      | error e => rfl
      | ok env' => exact ih l₂ env'

/-- **C6.** A bytecode-compilation failure is collected as a diagnostic and
never causes the install to fail: whenever the unpack writes succeed, the
install returns success for every compile-failure set, the
installed-manifest record is still written, and the failing files appear as
diagnostics. -/
theorem compile_failure_nonfatal (ff cf : List String) (env : Env)
    (a : BuiltArtifact) (hok : ∀ p ∈ a.files, p ∉ ff) :
    runInstall ff cf env a =
      .ok { files := env.files ++ a.files
            manifests := env.manifests ++ [(a.name, a.files)]
            diagnostics := env.diagnostics ++ a.files.filter (fun p => p ∈ cf) } := by
  unfold runInstall installSteps
  rw [runSteps_append, runSteps_append, runSteps_stage_ok ff cf a.files env hok]
  simp only [runSteps, applyStep]
  rw [runSteps_compile]

/-- Witness for C6: a two-file artifact whose second file fails to compile
still installs successfully, with the manifest written and one diagnostic. -/
theorem compile_failure_nonfatal_witness :
    runInstall [] ["f2"] ⟨[], [], []⟩ ⟨"a", ["f1", "f2"]⟩ =
      .ok ⟨["f1", "f2"], [("a", ["f1", "f2"])], ["f2"]⟩ := by
  rw [compile_failure_nonfatal [] ["f2"] ⟨[], [], []⟩ ⟨"a", ["f1", "f2"]⟩
    (by decide)]
  rfl

/-- Running staging steps never commits a manifest record, whatever the
outcome of each write. -/
theorem runSteps_stage_manifests (ff cf : List String) :
    ∀ (fs : List String) (env env' : Env),
      runSteps ff cf env (fs.map Step.stageFile) = .ok env' →
      env'.manifests = env.manifests := by
  intro fs
  induction fs with
  | nil =>
      intro env env' h
      simp only [List.map_nil, runSteps] at h
      cases h
      rfl
  | cons p rest ih =>
      intro env env' h
      rw [List.map_cons] at h
      by_cases hp : p ∈ ff
      · simp [runSteps, applyStep, if_pos hp] at h
      · simp only [runSteps, applyStep, if_neg hp] at h
        have := ih _ _ h
        simpa using this

/-- **C7.** An install that does not complete its unpack phase registers
nothing: the manifest is committed only after all files are staged, so any
prefix of the install that stops mid-unpack leaves the distribution
unregistered and a subsequent inventory scan treats it as not installed. -/
theorem incomplete_unpack_unregistered (ff cf : List String) (env : Env)
    (a : BuiltArtifact) (k : Nat) (env' : Env)
    (hk : k < a.files.length)
    (h0 : isRegistered env a.name = false)
    (hrun : runSteps ff cf env ((installSteps a).take k) = .ok env') :
    isRegistered env' a.name = false := by
  have hsplit : (installSteps a).take k = (a.files.take k).map Step.stageFile := by
    unfold installSteps
    rw [List.append_assoc]
    rw [List.take_append_of_le_length (by simpa using Nat.le_of_lt hk)]
    rw [List.map_take]
  rw [hsplit] at hrun
  have hm : env'.manifests = env.manifests :=
    runSteps_stage_manifests ff cf (a.files.take k) env env' hrun
  unfold isRegistered at h0 ⊢
  rw [hm]
  exact h0

/-- Witness for C7: staging only the first of two files leaves the
distribution unregistered. -/
theorem incomplete_unpack_unregistered_witness :
    isRegistered ⟨["f1"], [], []⟩ "a" = false :=
  incomplete_unpack_unregistered [] [] ⟨[], [], []⟩ ⟨"a", ["f1", "f2"]⟩ 1
    ⟨["f1"], [], []⟩ (by decide) (by decide) (by rfl)

/-- **C8.** With seeding enabled, the seed requirement list is exactly
pip, setuptools, wheel when the interpreter's Python version tuple is less
than (3, 12) in lexicographic order, and exactly pip otherwise. -/
theorem seed_requirements_spec (major minor : Nat) :
    (major < 3 ∨ (major = 3 ∧ minor < 12) →
        seedRequirements (major, minor) = ["pip", "setuptools", "wheel"]) ∧
      (¬(major < 3 ∨ (major = 3 ∧ minor < 12)) →
        seedRequirements (major, minor) = ["pip"]) := by
  unfold seedRequirements
  constructor <;> intro h <;> simp_all

/-- Witness for C8: Python 3.11 receives all three seed packages. -/
theorem seed_requirements_spec_witness :
    seedRequirements (3, 11) = ["pip", "setuptools", "wheel"] :=
  (seed_requirements_spec 3 11).1 (by decide)

/-- **C9.** `venv` never returns an error: a failure of `venv_impl` is
converted to `Ok(ExitStatus::Failure)`, and on success `venv` returns
`Ok(ExitStatus::Success)` (the only success exit of `venv_impl`). -/
theorem venv_never_errors (findInterpreter create : Except String Unit)
    (seed : Bool) (seedInstall writeActivation : Except String Unit) :
    (∀ e, venv (venv_impl findInterpreter create seed seedInstall writeActivation) ≠
        .error e) ∧
      ((venv_impl findInterpreter create seed seedInstall writeActivation).isOk = true →
          venv (venv_impl findInterpreter create seed seedInstall writeActivation) =
            .ok ExitStatus.Success) ∧
      ((venv_impl findInterpreter create seed seedInstall writeActivation).isOk = false →
          venv (venv_impl findInterpreter create seed seedInstall writeActivation) =
            .ok ExitStatus.Failure) := by
  cases findInterpreter <;> cases create <;> cases seed <;> cases seedInstall <;>
    cases writeActivation <;>
      simp [venv_impl, venv, bind, Except.bind, pure, Except.pure, Except.isOk,
        Except.toBool]

/-- Witness for C9: a failing seed install still yields
`Ok(ExitStatus::Failure)`. -/
theorem venv_never_errors_witness :
    venv (venv_impl (.ok ()) (.ok ()) true (.error "boom") (.ok ())) =
      .ok ExitStatus.Failure :=
  (venv_never_errors (.ok ()) (.ok ()) true (.error "boom") (.ok ())).2.2 (by rfl)

/-- The recursive replacement agrees with its flat-map description. -/
theorem replaceQuote_eq_spec (s : List Char) :
    replaceQuote s = replaceQuoteSpec s := by
  induction s with
  | nil => rfl
  | cons c rest ih => simp [replaceQuote, replaceQuoteSpec, ih]

/-- In single-quote mode a single quote returns to unquoted mode. -/
theorem readAux_single_squote (rest : List Char) :
    posixReadAux .single (squote :: rest) = posixReadAux .unquoted rest := by
  simp [posixReadAux]

/-- In single-quote mode any other character is collected verbatim. -/
theorem readAux_single_other (c : Char) (rest : List Char) (hc : ¬c = squote) :
    posixReadAux .single (c :: rest) =
      (posixReadAux .single rest).map (fun s => c :: s) := by
  simp [posixReadAux, hc]

/-- Outside quotes a single quote enters single-quote mode. -/
theorem readAux_unquoted_squote (rest : List Char) :
    posixReadAux .unquoted (squote :: rest) = posixReadAux .single rest := by
  simp [posixReadAux]

/-- Outside quotes a double quote enters double-quote mode. -/
theorem readAux_unquoted_dquote (rest : List Char) :
    posixReadAux .unquoted (dquote :: rest) = posixReadAux .double rest := by
  have h : ¬(dquote = squote) := by decide
  simp [posixReadAux, h]

/-- In double-quote mode a single quote is collected verbatim. -/
theorem readAux_double_squote (rest : List Char) :
    posixReadAux .double (squote :: rest) =
      (posixReadAux .double rest).map (fun s => squote :: s) := by
  have h1 : ¬(squote = dquote) := by decide
  have h2 : ¬(squote = Char.ofNat 36 ∨ squote = Char.ofNat 92 ∨
      squote = Char.ofNat 96) := by decide
  simp [posixReadAux, h1, h2]

/-- In double-quote mode a double quote returns to unquoted mode. -/
theorem readAux_double_dquote (rest : List Char) :
    posixReadAux .double (dquote :: rest) = posixReadAux .unquoted rest := by
  simp [posixReadAux]

/-- Reading the replaced text in single-quote mode, up to a closing single
quote, recovers the original characters. -/
theorem posixReadAux_single_replace (s rest : List Char) :
    posixReadAux .single (replaceQuote s ++ squote :: rest) =
      (posixReadAux .unquoted rest).map (fun t => s ++ t) := by
  induction s with
  | nil =>
      rw [replaceQuote, List.nil_append, readAux_single_squote]
      cases posixReadAux .unquoted rest <;> rfl
  | cons c s ih =>
      by_cases hc : c = squote
      · subst hc
        have hstep : replaceQuote (squote :: s) ++ squote :: rest =
            squote :: dquote :: squote :: dquote :: squote ::
              (replaceQuote s ++ squote :: rest) := by
          simp [replaceQuote, quoteReplacement]
        rw [hstep, readAux_single_squote, readAux_unquoted_dquote,
          readAux_double_squote, readAux_double_dquote, readAux_unquoted_squote, ih]
        cases posixReadAux .unquoted rest <;> rfl
      · have hstep : replaceQuote (c :: s) ++ squote :: rest =
            c :: (replaceQuote s ++ squote :: rest) := by
          simp [replaceQuote, hc]
        rw [hstep, readAux_single_other c _ hc, ih]
        cases posixReadAux .unquoted rest <;> rfl

/-- **C10.** `shlex_posix` returns the display path unchanged when it has
no space; otherwise it wraps it in single quotes with every embedded single
quote replaced by the quote-double-quote sequence, and a POSIX shell reads
the quoted word back as the original path. -/
theorem shlex_posix_spec (s : List Char) :
    (s.contains space = false → shlex_posix s = s) ∧
      (s.contains space = true →
        shlex_posix s = squote :: (replaceQuoteSpec s ++ [squote]) ∧
          posixRead (shlex_posix s) = some s) := by
  constructor
  · intro h
    unfold shlex_posix
    rw [h]
    simp
  · intro h
    have hq : shlex_posix s = squote :: (replaceQuote s ++ [squote]) := by
      unfold shlex_posix
      rw [h]
      simp
    refine ⟨by rw [hq, replaceQuote_eq_spec], ?_⟩
    rw [hq]
    unfold posixRead
    rw [readAux_unquoted_squote]
    have hs := posixReadAux_single_replace s []
    simp only [posixReadAux] at hs
    simpa using hs

/-- Witness for C10: a path with a space and a single quote. -/
theorem shlex_posix_spec_witness :
    shlex_posix ("a b".data) =
        squote :: (replaceQuoteSpec ("a b".data) ++ [squote]) ∧
      posixRead (shlex_posix ("a b".data)) = some ("a b".data) :=
  (shlex_posix_spec ("a b".data)).2 (by decide)

end UvSpec
